import Mathlib

/-!
Verification of the private-transactions status journal
(`ethcore/private-tx/src/log.rs` of parity-ethereum).

The Rust code is shallowly embedded: the `HashMap<H256, TransactionLog>`
is modelled as an association list with unique keys, `H256` and `Address`
are modelled as opaque `Nat` identifiers, and the clock reading taken by
each mutating operation is passed as an explicit `now : Nat` argument
(the code reads the injected `TimestampSource` once per mutation).
`u64` subtraction is modelled exactly, with wrap-around modulo `2 ^ 64`.
-/

namespace PrivateTxLog

/-- Maximum amount of stored private transaction logs (`MAX_JOURNAL_LEN`). -/
def MAX_JOURNAL_LEN : Nat := 1000

/-- Maximum period for storing private transaction logs, 20 days in seconds
(`MAX_STORING_TIME`). -/
def MAX_STORING_TIME : Nat := 60 * 60 * 24 * 20

/-- Current status of the private transaction (`PrivateTxStatus`). -/
inductive PrivateTxStatus where
  | Created
  | Validating
  | Deployed
deriving DecidableEq, Repr

/-- Information about private tx validation (`ValidatorLog`); the validator
account address is an opaque `Nat` identifier. -/
structure ValidatorLog where
  account : Nat
  validated : Bool
  validation_timestamp : Option Nat
deriving DecidableEq, Repr

/-- Information about the private transaction (`TransactionLog`); hashes are
opaque `Nat` identifiers. -/
structure TransactionLog where
  tx_hash : Nat
  status : PrivateTxStatus
  creation_timestamp : Nat
  validators : List ValidatorLog
  deployment_timestamp : Option Nat
  public_tx_hash : Option Nat
deriving DecidableEq, Repr

/-- The in-memory `HashMap<H256, TransactionLog>` of `Logging`, modelled as an
association list from hash to log. -/
abbrev State := List (Nat × TransactionLog)

/-- Model of `HashMap::get`: the value bound to the first occurrence of a key. -/
def lookupA : State → Nat → Option TransactionLog
  | [], _ => none
  | (k', v) :: rest, k => if k' = k then some v else lookupA rest k

/-- Model of `HashMap::contains_key`. -/
def containsA (m : State) (k : Nat) : Bool := (lookupA m k).isSome

/-- Model of `HashMap::insert`: replaces the binding when the key is present,
otherwise adds a new binding. -/
def insertA : State → Nat → TransactionLog → State
  | [], k, v => [(k, v)]
  | (k', v') :: rest, k, v =>
    if k' = k then (k, v) :: rest else (k', v') :: insertA rest k v

/-- Model of `HashMap::remove`. -/
def removeA : State → Nat → State
  | [], _ => []
  | (k', v') :: rest, k =>
    if k' = k then removeA rest k else (k', v') :: removeA rest k

/-- Model of `HashMap::get_mut` followed by an in-place update of the found entry. -/
def modifyA : State → Nat → (TransactionLog → TransactionLog) → State
  | [], _, _ => []
  | (k', v') :: rest, k, f =>
    if k' = k then (k', f v') :: modifyA rest k f else (k', v') :: modifyA rest k f

/-- Model of `HashMap::values`. -/
def valuesA (m : State) : List TransactionLog := m.map Prod.snd

/-- The key set of the map, as a list. -/
def keysA (m : State) : List Nat := m.map Prod.fst

/-- Model of `HashMap::len`. -/
def sizeA (m : State) : Nat := m.length

/-- Model of `values().min_by(|x, y| x.creation_timestamp.cmp(&y.creation_timestamp))`:
a minimal element of the value iteration (the earlier one wins ties; HashMap
iteration order, hence the tie-break, is arbitrary). -/
def oldestVal : List TransactionLog → Option TransactionLog
  | [] => none
  | v :: rest =>
    match oldestVal rest with
    | none => some v
    | some o => if v.creation_timestamp ≤ o.creation_timestamp then some v else some o

/-- The `min_by` step of `private_tx_created`, over the map's values. -/
def oldestA (m : State) : Option TransactionLog := oldestVal (valuesA m)

/-- One freshly created `ValidatorLog` of `private_tx_created`. -/
def newValidatorLog (account : Nat) : ValidatorLog :=
  { account := account, validated := false, validation_timestamp := none }

/-- The `TransactionLog` inserted by `private_tx_created`. -/
def newTransactionLog (tx_hash : Nat) (validators : List Nat) (now : Nat) : TransactionLog :=
  { tx_hash := tx_hash
    status := PrivateTxStatus.Created
    creation_timestamp := now
    validators := validators.map newValidatorLog
    deployment_timestamp := none
    public_tx_hash := none }

/-- The eviction step at the head of `private_tx_created`: when the map holds
strictly more than `MAX_JOURNAL_LEN` entries, remove the entry whose hash is
the `tx_hash` field of the oldest value. -/
def evictIfFull (m : State) : State :=
  if sizeA m > MAX_JOURNAL_LEN then
    match oldestA m with
    | some oldest => removeA m oldest.tx_hash
    | none => m
  else m

/-- Model of `Logging::private_tx_created`. -/
def private_tx_created (m : State) (tx_hash : Nat) (validators : List Nat) (now : Nat) : State :=
  insertA (evictIfFull m) tx_hash (newTransactionLog tx_hash validators now)

/-- Model of `validators.iter_mut().find(|log| log.account == *validator)` followed by
the in-place update: only the first matching record is marked validated. -/
def markValidated : List ValidatorLog → Nat → Nat → List ValidatorLog
  | [], _, _ => []
  | vl :: rest, validator, now =>
    if vl.account = validator then
      { vl with validated := true, validation_timestamp := some now } :: rest
    else vl :: markValidated rest validator now

/-- The per-entry update performed by `signature_added` on a found entry:
status is set to `Validating` unconditionally; the validator flags are set
only when a matching validator record exists. -/
def sigUpdate (log : TransactionLog) (validator : Nat) (now : Nat) : TransactionLog :=
  match log.validators.find? (fun vl => vl.account == validator) with
  | some _ =>
    { log with
      status := PrivateTxStatus.Validating
      validators := markValidated log.validators validator now }
  | none => { log with status := PrivateTxStatus.Validating }

/-- Model of `Logging::signature_added`. -/
def signature_added (m : State) (tx_hash validator now : Nat) : State :=
  if containsA m tx_hash then modifyA m tx_hash (fun log => sigUpdate log validator now)
  else m

/-- The per-entry update performed by `tx_deployed` on a found entry. -/
def deployUpdate (log : TransactionLog) (public_tx_hash now : Nat) : TransactionLog :=
  { log with
    status := PrivateTxStatus.Deployed
    deployment_timestamp := some now
    public_tx_hash := some public_tx_hash }

/-- Model of `Logging::tx_deployed`. -/
def tx_deployed (m : State) (tx_hash public_tx_hash now : Nat) : State :=
  if containsA m tx_hash then modifyA m tx_hash (fun log => deployUpdate log public_tx_hash now)
  else m

/-- One call into the journal's mutating API, with the clock reading the call
observes. -/
inductive Op where
  | create (tx_hash : Nat) (validators : List Nat) (now : Nat)
  | sigAdd (tx_hash : Nat) (validator : Nat) (now : Nat)
  | deploy (tx_hash : Nat) (publicHash : Nat) (now : Nat)
deriving DecidableEq, Repr

/-- Dispatch of one call. -/
def step (m : State) : Op → State
  | Op.create h vs t => private_tx_created m h vs t
  | Op.sigAdd h v t => signature_added m h v t
  | Op.deploy h p t => tx_deployed m h p t

/-- A sequence of calls applied to the initially empty journal. -/
def runOps (ops : List Op) : State := ops.foldl step []

/-- The modulus `2 ^ 64` of `u64` arithmetic. -/
def U64MOD : Nat := 2 ^ 64

/-- Model of `u64` wrapping subtraction `a - b` (the release-mode meaning of the
unguarded subtraction in `Logging::read_logs`). -/
def wrapSub (a b : Nat) : Nat := (a + (U64MOD - b % U64MOD)) % U64MOD

/-- The retain predicate of `Logging::read_logs`:
`current_timestamp - tx_log.creation_timestamp < MAX_STORING_TIME`. -/
def keepLog (now : Nat) (log : TransactionLog) : Bool :=
  decide (wrapSub now log.creation_timestamp < MAX_STORING_TIME)

/-- Model of `Logging::read_logs`: filter the loaded snapshot by age, then insert each
surviving log keyed by its `tx_hash` (later entries overwrite earlier ones). -/
def read_logs (m0 : State) (snapshot : List TransactionLog) (now : Nat) : State :=
  (snapshot.filter (keepLog now)).foldl (fun m log => insertA m log.tx_hash log) m0

/-- The in-memory map right after `Logging::new` loads a snapshot: the map
starts empty and `read_logs` populates it. -/
def loadAtConstruction (snapshot : List TransactionLog) (now : Nat) : State :=
  read_logs [] snapshot now

/-- The backing file of `FileLogsSerializer`: `none` means the file does not
exist; `some logs` means it exists and holds the serialized entries. -/
abbrev FileState := Option (List TransactionLog)

/-- Model of `FileLogsSerializer`, configured with an optional directory. -/
structure FileLogsSerializer where
  logs_dir : Option String

namespace FileLogsSerializer

/-- Model of `FileLogsSerializer::flush_logs`, returning the call's result together
with the backing file's state afterwards. An empty map returns early; a
missing directory makes `open_file` return `Ok(None)` and nothing is written;
otherwise `File::create` (re)creates the file and the values are written. -/
def flush_logs (s : FileLogsSerializer) (file : FileState) (logs : State) :
    Except String Unit × FileState :=
  if sizeA logs = 0 then (Except.ok (), file)
  else
    match s.logs_dir with
    | none => (Except.ok (), file)
    | some _ => (Except.ok (), some (valuesA logs))

/-- Model of `FileLogsSerializer::read_logs`: a missing directory yields `Ok(vec![])`;
with a directory, a missing file is an error and an existing file yields its
contents. -/
def read_logs (s : FileLogsSerializer) (file : FileState) :
    Except String (List TransactionLog) :=
  match s.logs_dir with
  | none => Except.ok []
  | some _ =>
    match file with
    | none => Except.error "Cannot open logs file"
    | some content => Except.ok content

end FileLogsSerializer

/-! ### Basic lemmas about the map model -/

theorem keysA_nil : keysA ([] : State) = [] := rfl

theorem keysA_cons (k : Nat) (v : TransactionLog) (rest : State) :
    keysA ((k, v) :: rest) = k :: keysA rest := rfl

theorem sizeA_eq_length_keysA (m : State) : sizeA m = (keysA m).length := by
  simp [sizeA, keysA]

theorem lookupA_insertA : ∀ (m : State) (k : Nat) (v : TransactionLog) (k' : Nat),
    lookupA (insertA m k v) k' = if k = k' then some v else lookupA m k'
  | [], k, v, k' => by simp [insertA, lookupA]
  | (pk, pv) :: rest, k, v, k' => by
    by_cases hpk : pk = k
    · subst hpk
      by_cases hk' : pk = k'
      · subst hk'
        simp [insertA, lookupA]
      · simp [insertA, lookupA, hk']
    · by_cases hk' : pk = k'
      · subst hk'
        have hne : ¬k = pk := fun h => hpk h.symm
        simp [insertA, lookupA, hpk, hne]
      · simp [insertA, lookupA, hpk, hk', lookupA_insertA rest k v k']

theorem removeA_cons_self (pk : Nat) (pv : TransactionLog) (rest : State) :
    removeA ((pk, pv) :: rest) pk = removeA rest pk := by
  simp [removeA]

theorem lookupA_removeA : ∀ (m : State) (k k' : Nat),
    lookupA (removeA m k) k' = if k = k' then none else lookupA m k'
  | [], k, k' => by simp [removeA, lookupA]
  | (pk, pv) :: rest, k, k' => by
    by_cases hpk : pk = k
    · subst hpk
      rw [removeA_cons_self, lookupA_removeA rest pk k']
      by_cases hk' : pk = k'
      · simp [hk']
      · simp [hk', lookupA]
    · by_cases hk' : pk = k'
      · subst hk'
        have hne : ¬k = pk := fun h => hpk h.symm
        simp [removeA, hpk, lookupA, hne]
      · simp [removeA, hpk, lookupA, hk', lookupA_removeA rest k k']

theorem lookupA_modifyA : ∀ (m : State) (k : Nat) (f : TransactionLog → TransactionLog)
    (k' : Nat),
    lookupA (modifyA m k f) k' = if k = k' then (lookupA m k).map f else lookupA m k'
  | [], k, f, k' => by simp [modifyA, lookupA]
  | (pk, pv) :: rest, k, f, k' => by
    by_cases hpk : pk = k
    · subst hpk
      by_cases hk' : pk = k'
      · subst hk'
        simp [modifyA, lookupA]
      · simp [modifyA, lookupA, hk', lookupA_modifyA rest pk f k']
    · by_cases hk' : pk = k'
      · subst hk'
        have hne : ¬k = pk := fun h => hpk h.symm
        simp [modifyA, lookupA, hpk, hne]
      · simp [modifyA, lookupA, hpk, hk', lookupA_modifyA rest k f k']

theorem lookupA_eq_none_iff : ∀ (m : State) (k : Nat),
    lookupA m k = none ↔ k ∉ keysA m
  | [], k => by simp [lookupA, keysA]
  | (pk, pv) :: rest, k => by
    by_cases hpk : pk = k
    · subst hpk
      simp [lookupA, keysA_cons]
    · have hne : ¬k = pk := fun h => hpk h.symm
      simp [lookupA, hpk, keysA_cons, hne, lookupA_eq_none_iff rest k]

theorem keysA_insertA_of_not_mem : ∀ (m : State) (k : Nat) (v : TransactionLog),
    k ∉ keysA m → keysA (insertA m k v) = keysA m ++ [k]
  | [], k, v, _ => by simp [insertA, keysA]
  | (pk, pv) :: rest, k, v, hk => by
    simp only [keysA_cons, List.mem_cons, not_or] at hk
    obtain ⟨hne, hrest⟩ := hk
    have hpk : ¬pk = k := fun h => hne h.symm
    simp [insertA, hpk, keysA_cons, keysA_insertA_of_not_mem rest k v hrest]

theorem sizeA_insertA_of_not_mem (m : State) (k : Nat) (v : TransactionLog)
    (hk : k ∉ keysA m) : sizeA (insertA m k v) = sizeA m + 1 := by
  have h := congrArg List.length (keysA_insertA_of_not_mem m k v hk)
  simp only [List.length_append, List.length_cons, List.length_nil] at h
  rw [sizeA_eq_length_keysA, sizeA_eq_length_keysA, h]

theorem removeA_eq_self_of_not_mem : ∀ (m : State) (k : Nat),
    k ∉ keysA m → removeA m k = m
  | [], _, _ => rfl
  | (pk, pv) :: rest, k, hk => by
    simp only [keysA_cons, List.mem_cons, not_or] at hk
    obtain ⟨hne, hrest⟩ := hk
    have hpk : ¬pk = k := fun h => hne h.symm
    simp [removeA, hpk, removeA_eq_self_of_not_mem rest k hrest]

theorem sizeA_removeA_of_mem : ∀ (m : State) (k : Nat),
    (keysA m).Nodup → k ∈ keysA m → sizeA (removeA m k) + 1 = sizeA m
  | [], k, _, hk => by simp [keysA] at hk
  | (pk, pv) :: rest, k, hnd, hk => by
    simp only [keysA_cons, List.nodup_cons] at hnd
    by_cases hpk : pk = k
    · subst hpk
      rw [removeA_cons_self, removeA_eq_self_of_not_mem rest pk hnd.1]
      simp [sizeA]
    · have hkrest : k ∈ keysA rest := by
        simp only [keysA_cons, List.mem_cons] at hk
        rcases hk with h | h
        · exact absurd h.symm hpk
        · exact h
      have ih := sizeA_removeA_of_mem rest k hnd.2 hkrest
      simp only [removeA, if_neg hpk, sizeA, List.length_cons] at ih ⊢
      omega

/-! ### Lemmas about the oldest-entry selection -/

theorem oldestVal_isSome (ls : List TransactionLog) (h : ls ≠ []) :
    (oldestVal ls).isSome := by
  cases ls with
  | nil => exact absurd rfl h
  | cons v rest =>
    simp only [oldestVal]
    cases oldestVal rest with
    | none => simp
    | some o =>
      by_cases hle : v.creation_timestamp ≤ o.creation_timestamp <;> simp [hle]

theorem oldestVal_mem : ∀ (ls : List TransactionLog) (o : TransactionLog),
    oldestVal ls = some o → o ∈ ls
  | [], o, h => by simp [oldestVal] at h
  | v :: rest, o, h => by
    cases hr : oldestVal rest with
    | none =>
      simp only [oldestVal, hr] at h
      simp only [Option.some.injEq] at h
      simp [h]
    | some o' =>
      simp only [oldestVal, hr] at h
      by_cases hle : v.creation_timestamp ≤ o'.creation_timestamp
      · rw [if_pos hle] at h
        simp only [Option.some.injEq] at h
        simp [h]
      · rw [if_neg hle] at h
        simp only [Option.some.injEq] at h
        exact List.mem_cons_of_mem _ (oldestVal_mem rest o (h ▸ hr))

theorem oldestVal_le : ∀ (ls : List TransactionLog) (o : TransactionLog),
    oldestVal ls = some o →
    ∀ v ∈ ls, o.creation_timestamp ≤ v.creation_timestamp
  | [], o, h => by simp [oldestVal] at h
  | v :: rest, o, h => by
    intro x hx
    cases hr : oldestVal rest with
    | none =>
      simp only [oldestVal, hr] at h
      simp only [Option.some.injEq] at h
      subst h
      have hrest : rest = [] := by
        cases rest with
        | nil => rfl
        | cons a b =>
          have hs := oldestVal_isSome (a :: b) (by simp)
          rw [hr] at hs
          simp at hs
      subst hrest
      simp only [List.mem_singleton] at hx
      subst hx
      exact le_refl _
    | some o' =>
      simp only [oldestVal, hr] at h
      by_cases hle : v.creation_timestamp ≤ o'.creation_timestamp
      · rw [if_pos hle] at h
        simp only [Option.some.injEq] at h
        subst h
        rcases List.mem_cons.mp hx with h' | h'
        · subst h'; exact le_refl _
        · exact le_trans hle (oldestVal_le rest o' hr x h')
      · rw [if_neg hle] at h
        simp only [Option.some.injEq] at h
        rcases List.mem_cons.mp hx with h' | h'
        · subst h'
          rw [← h]
          exact le_of_not_le hle
        · exact oldestVal_le rest o (h ▸ hr) x h'

/-! ### Well-formedness of reachable maps -/

/-- Reachable journal maps bind each hash at most once and key every log by
its own `tx_hash` field. -/
def Wf (m : State) : Prop :=
  (keysA m).Nodup ∧ ∀ p ∈ m, (Prod.snd p).tx_hash = p.1

theorem mem_of_mem_valuesA (m : State) (o : TransactionLog) (h : o ∈ valuesA m) :
    ∃ k, (k, o) ∈ m := by
  rcases List.mem_map.mp h with ⟨p, hp, hpo⟩
  exact ⟨p.1, by rw [← hpo, Prod.mk.eta]; exact hp⟩

theorem keyed_mem_of_mem_valuesA (m : State) (hwf : Wf m) (o : TransactionLog)
    (h : o ∈ valuesA m) : (o.tx_hash, o) ∈ m := by
  obtain ⟨k, hk⟩ := mem_of_mem_valuesA m o h
  have hfield := hwf.2 (k, o) hk
  rw [show o.tx_hash = k from hfield]
  exact hk

theorem mem_keysA_of_mem (m : State) (p : Nat × TransactionLog) (hp : p ∈ m) :
    p.1 ∈ keysA m :=
  List.mem_map_of_mem Prod.fst hp

theorem mem_insertA : ∀ (m : State) (k : Nat) (v : TransactionLog)
    (p : Nat × TransactionLog), p ∈ insertA m k v → p ∈ m ∨ p = (k, v)
  | [], k, v, p, h => by
    simp [insertA] at h
    exact Or.inr h
  | (pk, pv) :: rest, k, v, p, h => by
    by_cases hpk : pk = k
    · subst hpk
      rw [show insertA ((pk, pv) :: rest) pk v = (pk, v) :: rest from by
        simp [insertA]] at h
      rcases List.mem_cons.mp h with h1 | h1
      · exact Or.inr h1
      · exact Or.inl (List.mem_cons_of_mem _ h1)
    · rw [show insertA ((pk, pv) :: rest) k v = (pk, pv) :: insertA rest k v from by
        simp [insertA, hpk]] at h
      rcases List.mem_cons.mp h with h1 | h1
      · exact Or.inl (by simp [h1])
      · rcases mem_insertA rest k v p h1 with h' | h'
        · exact Or.inl (List.mem_cons_of_mem _ h')
        · exact Or.inr h'

/-! ### The eviction step -/

theorem evictIfFull_of_full (m : State)
    (hfull : sizeA m > MAX_JOURNAL_LEN) :
    ∃ oldest : TransactionLog,
      oldestA m = some oldest ∧ evictIfFull m = removeA m oldest.tx_hash := by
  have hvne : valuesA m ≠ [] := by
    intro hv
    have hz : sizeA m = 0 := by
      have := congrArg List.length hv
      simpa [valuesA, sizeA] using this
    omega
  have hs := oldestVal_isSome (valuesA m) hvne
  rcases Option.isSome_iff_exists.mp hs with ⟨o, ho⟩
  refine ⟨o, ho, ?_⟩
  simp [evictIfFull, hfull, oldestA, ho]

/-- The journal never evicts on a map at or under the threshold. -/
theorem evictIfFull_of_not_full (m : State) (hfull : ¬sizeA m > MAX_JOURNAL_LEN) :
    evictIfFull m = m := by
  simp [evictIfFull, hfull]

/-- C5: whenever a `private_tx_created` call triggers capacity eviction
(the map holds more than `MAX_JOURNAL_LEN` entries), exactly one entry is
removed before the insertion, and it is one with the globally smallest
`creation_timestamp` among the entries present just before the eviction. -/
theorem create_eviction_removes_single_oldest (m : State) (hwf : Wf m)
    (hfull : sizeA m > MAX_JOURNAL_LEN) :
    ∃ oldest : TransactionLog,
      oldest ∈ valuesA m ∧
      (∀ v ∈ valuesA m, oldest.creation_timestamp ≤ v.creation_timestamp) ∧
      evictIfFull m = removeA m oldest.tx_hash ∧
      sizeA (evictIfFull m) + 1 = sizeA m ∧
      lookupA (evictIfFull m) oldest.tx_hash = none ∧
      (∀ k, k ≠ oldest.tx_hash → lookupA (evictIfFull m) k = lookupA m k) ∧
      (∀ h vs t, private_tx_created m h vs t =
        insertA (evictIfFull m) h (newTransactionLog h vs t)) := by
  obtain ⟨o, ho, hev⟩ := evictIfFull_of_full m hfull
  have hmem : o ∈ valuesA m := oldestVal_mem (valuesA m) o ho
  have hkey : o.tx_hash ∈ keysA m :=
    mem_keysA_of_mem m (o.tx_hash, o) (keyed_mem_of_mem_valuesA m hwf o hmem)
  refine ⟨o, hmem, oldestVal_le (valuesA m) o ho, hev, ?_, ?_, ?_, fun h vs t => rfl⟩
  · rw [hev]
    exact sizeA_removeA_of_mem m o.tx_hash hwf.1 hkey
  · rw [hev, lookupA_removeA, if_pos rfl]
  · intro k hk
    rw [hev, lookupA_removeA, if_neg (fun h => hk h.symm)]

/-! ### A sequence of distinct creations (the capacity counterexample) -/

/-- The map after `n` successive `private_tx_created` calls with the distinct hashes
`0, 1, …, n - 1` on an initially empty journal. -/
def createSeq : Nat → State
  | 0 => []
  | n + 1 => private_tx_created (createSeq n) n [] 0

theorem keysA_createSeq : ∀ n, n ≤ MAX_JOURNAL_LEN + 1 →
    keysA (createSeq n) = List.range n
  | 0, _ => rfl
  | n + 1, h => by
    have ih := keysA_createSeq n (Nat.le_of_succ_le h)
    have hsize : sizeA (createSeq n) = n := by
      rw [sizeA_eq_length_keysA, ih, List.length_range]
    have hnofull : ¬sizeA (createSeq n) > MAX_JOURNAL_LEN := by
      rw [hsize]
      have : n ≤ MAX_JOURNAL_LEN := Nat.lt_succ_iff.mp (Nat.lt_of_succ_le h)
      omega
    have hnotmem : (n : Nat) ∉ keysA (createSeq n) := by
      rw [ih]
      simp
    show keysA (insertA (evictIfFull (createSeq n)) n (newTransactionLog n [] 0)) =
      List.range (n + 1)
    rw [evictIfFull_of_not_full _ hnofull, keysA_insertA_of_not_mem _ _ _ hnotmem, ih,
      List.range_succ]

theorem sizeA_createSeq (n : Nat) (h : n ≤ MAX_JOURNAL_LEN + 1) :
    sizeA (createSeq n) = n := by
  rw [sizeA_eq_length_keysA, keysA_createSeq n h, List.length_range]

theorem wf_field_createSeq : ∀ n, n ≤ MAX_JOURNAL_LEN + 1 →
    ∀ p ∈ createSeq n, (Prod.snd p).tx_hash = p.1
  | 0, _, p, hp => by simp [createSeq] at hp
  | n + 1, h, p, hp => by
    have hsize : sizeA (createSeq n) = n := sizeA_createSeq n (Nat.le_of_succ_le h)
    have hnofull : ¬sizeA (createSeq n) > MAX_JOURNAL_LEN := by
      rw [hsize]
      have : n ≤ MAX_JOURNAL_LEN := Nat.lt_succ_iff.mp (Nat.lt_of_succ_le h)
      omega
    have hp' : p ∈ insertA (createSeq n) n (newTransactionLog n [] 0) := by
      have hev := evictIfFull_of_not_full (createSeq n) hnofull
      have heq : createSeq (n + 1) = insertA (createSeq n) n (newTransactionLog n [] 0) := by
        show insertA (evictIfFull (createSeq n)) n (newTransactionLog n [] 0) = _
        rw [hev]
      exact heq ▸ hp
    rcases mem_insertA _ _ _ _ hp' with h' | h'
    · exact wf_field_createSeq n (Nat.le_of_succ_le h) p h'
    · rw [h']
      rfl

theorem wf_createSeq (n : Nat) (h : n ≤ MAX_JOURNAL_LEN + 1) : Wf (createSeq n) :=
  ⟨by rw [keysA_createSeq n h]; exact List.nodup_range n, wf_field_createSeq n h⟩

/-- C1: the eviction guard of `private_tx_created` is `len > MAX_JOURNAL_LEN`
(strict), so 1001 create calls with distinct hashes leave the journal holding
`MAX_JOURNAL_LEN + 1 = 1001` entries, exceeding the documented maximum of
1000. -/
theorem journal_size_exceeds_max :
    sizeA (createSeq (MAX_JOURNAL_LEN + 1)) = MAX_JOURNAL_LEN + 1 ∧
      MAX_JOURNAL_LEN < sizeA (createSeq (MAX_JOURNAL_LEN + 1)) := by
  have h := sizeA_createSeq (MAX_JOURNAL_LEN + 1) (le_refl _)
  exact ⟨h, by omega⟩

/-- Witness for C5: the 1001-entry journal reached by 1001 distinct creations
satisfies the hypotheses, and eviction removes exactly one oldest entry. -/
theorem create_eviction_removes_single_oldest_witness :
    Wf (createSeq 1001) ∧ sizeA (createSeq 1001) > MAX_JOURNAL_LEN ∧
      (∃ oldest : TransactionLog,
        oldest ∈ valuesA (createSeq 1001) ∧
        (∀ v ∈ valuesA (createSeq 1001),
          oldest.creation_timestamp ≤ v.creation_timestamp) ∧
        evictIfFull (createSeq 1001) = removeA (createSeq 1001) oldest.tx_hash ∧
        sizeA (evictIfFull (createSeq 1001)) + 1 = sizeA (createSeq 1001) ∧
        lookupA (evictIfFull (createSeq 1001)) oldest.tx_hash = none ∧
        (∀ k, k ≠ oldest.tx_hash →
          lookupA (evictIfFull (createSeq 1001)) k = lookupA (createSeq 1001) k) ∧
        (∀ h vs t, private_tx_created (createSeq 1001) h vs t =
          insertA (evictIfFull (createSeq 1001)) h (newTransactionLog h vs t))) := by
  have hle : (1001 : Nat) ≤ MAX_JOURNAL_LEN + 1 := by decide
  have hwf : Wf (createSeq 1001) := wf_createSeq 1001 hle
  have hsize : sizeA (createSeq 1001) = 1001 := sizeA_createSeq 1001 hle
  have hfull : sizeA (createSeq 1001) > MAX_JOURNAL_LEN := by
    rw [hsize]
    decide
  exact ⟨hwf, hfull, create_eviction_removes_single_oldest (createSeq 1001) hwf hfull⟩

/-! ### Status transitions -/

/-- The order `Created < Validating < Deployed` of the spec. -/
def statusRank : PrivateTxStatus → Nat
  | PrivateTxStatus.Created => 0
  | PrivateTxStatus.Validating => 1
  | PrivateTxStatus.Deployed => 2

theorem statusRank_le_two (s : PrivateTxStatus) : statusRank s ≤ 2 := by
  cases s <;> simp [statusRank]

theorem sigUpdate_status (log : TransactionLog) (v t : Nat) :
    (sigUpdate log v t).status = PrivateTxStatus.Validating := by
  unfold sigUpdate
  cases log.validators.find? (fun vl => vl.account == v) <;> rfl

theorem sigUpdate_deployment_fields (log : TransactionLog) (v t : Nat) :
    (sigUpdate log v t).deployment_timestamp = log.deployment_timestamp ∧
    (sigUpdate log v t).public_tx_hash = log.public_tx_hash := by
  unfold sigUpdate
  cases log.validators.find? (fun vl => vl.account == v) <;> exact ⟨rfl, rfl⟩

theorem lookupA_evictIfFull (m : State) (h : Nat) :
    lookupA (evictIfFull m) h = none ∨ lookupA (evictIfFull m) h = lookupA m h := by
  unfold evictIfFull
  by_cases hfull : sizeA m > MAX_JOURNAL_LEN
  · rw [if_pos hfull]
    cases ho : oldestA m with
    | none => right; rfl
    | some o =>
      rw [lookupA_removeA]
      by_cases hk : o.tx_hash = h
      · left
        rw [if_pos hk]
      · right
        rw [if_neg hk]
  · rw [if_neg hfull]
    right
    rfl

theorem lookupA_signature_added_ne (m : State) (h' v t h : Nat) (hh : h' ≠ h) :
    lookupA (signature_added m h' v t) h = lookupA m h := by
  unfold signature_added
  by_cases hc : containsA m h' = true
  · rw [if_pos hc, lookupA_modifyA, if_neg hh]
  · rw [if_neg hc]

theorem lookupA_tx_deployed_ne (m : State) (h' p t h : Nat) (hh : h' ≠ h) :
    lookupA (tx_deployed m h' p t) h = lookupA m h := by
  unfold tx_deployed
  by_cases hc : containsA m h' = true
  · rw [if_pos hc, lookupA_modifyA, if_neg hh]
  · rw [if_neg hc]

theorem lookupA_signature_added_self (m : State) (h v t : Nat) (log : TransactionLog)
    (hsome : lookupA m h = some log) :
    lookupA (signature_added m h v t) h = some (sigUpdate log v t) := by
  have hc : containsA m h = true := by simp [containsA, hsome]
  unfold signature_added
  rw [if_pos hc, lookupA_modifyA, if_pos rfl, hsome]
  rfl

theorem lookupA_tx_deployed_self (m : State) (h p t : Nat) (log : TransactionLog)
    (hsome : lookupA m h = some log) :
    lookupA (tx_deployed m h p t) h = some (deployUpdate log p t) := by
  have hc : containsA m h = true := by simp [containsA, hsome]
  unfold tx_deployed
  rw [if_pos hc, lookupA_modifyA, if_pos rfl, hsome]
  rfl

/-- C2 counterexample: after `create` and `tx_deployed` the entry is
`Deployed`; a subsequent `signature_added` regresses it to `Validating`,
a strictly smaller status. -/
theorem status_regression_counterexample :
    (lookupA (runOps [Op.create 1 [2] 0, Op.deploy 1 3 1]) 1).map
        TransactionLog.status = some PrivateTxStatus.Deployed ∧
    (lookupA (runOps [Op.create 1 [2] 0, Op.deploy 1 3 1, Op.sigAdd 1 2 2]) 1).map
        TransactionLog.status = some PrivateTxStatus.Validating ∧
    statusRank PrivateTxStatus.Validating < statusRank PrivateTxStatus.Deployed := by
  decide

/-- C2 (amended): across any single journal operation, an entry's status
rank never decreases, except that re-creating the entry's identifier resets
its status to `Created` and that `signature_added` on a `Deployed` entry
sets it back to `Validating`. -/
theorem status_monotone_except_quirks (m : State) (op : Op) (h : Nat)
    (log log' : TransactionLog)
    (hpre : lookupA m h = some log) (hpost : lookupA (step m op) h = some log') :
    statusRank log.status ≤ statusRank log'.status
    ∨ (∃ vs t, op = Op.create h vs t ∧ log'.status = PrivateTxStatus.Created)
    ∨ (∃ v t, op = Op.sigAdd h v t ∧ log.status = PrivateTxStatus.Deployed ∧
        log'.status = PrivateTxStatus.Validating) := by
  cases op with
  | create h' vs t =>
    by_cases hh : h' = h
    · subst hh
      have hstep : lookupA (step m (Op.create h' vs t)) h' =
          some (newTransactionLog h' vs t) := by
        show lookupA (insertA (evictIfFull m) h' (newTransactionLog h' vs t)) h' = _
        rw [lookupA_insertA, if_pos rfl]
      rw [hstep] at hpost
      have hlog' : log' = newTransactionLog h' vs t := (Option.some.inj hpost).symm
      right
      left
      exact ⟨vs, t, rfl, by rw [hlog']; rfl⟩
    · have hstep : lookupA (step m (Op.create h' vs t)) h = lookupA (evictIfFull m) h := by
        show lookupA (insertA (evictIfFull m) h' (newTransactionLog h' vs t)) h = _
        rw [lookupA_insertA, if_neg hh]
      rcases lookupA_evictIfFull m h with he | he
      · rw [hstep, he] at hpost
        simp at hpost
      · rw [hstep, he, hpre] at hpost
        left
        rw [Option.some.inj hpost]
  | sigAdd h' v t =>
    by_cases hh : h' = h
    · subst hh
      have hstep := lookupA_signature_added_self m h' v t log hpre
      rw [show step m (Op.sigAdd h' v t) = signature_added m h' v t from rfl, hstep] at hpost
      have hlog' : log' = sigUpdate log v t := (Option.some.inj hpost).symm
      have hst : log'.status = PrivateTxStatus.Validating := by
        rw [hlog', sigUpdate_status]
      cases hls : log.status with
      | Created =>
        left
        rw [hst]
        decide
      | Validating =>
        left
        rw [hst]
      | Deployed =>
        right
        right
        exact ⟨v, t, rfl, rfl, hst⟩
    · have hstep := lookupA_signature_added_ne m h' v t h hh
      rw [show step m (Op.sigAdd h' v t) = signature_added m h' v t from rfl, hstep,
        hpre] at hpost
      left
      rw [Option.some.inj hpost]
  | deploy h' p t =>
    left
    by_cases hh : h' = h
    · subst hh
      have hstep := lookupA_tx_deployed_self m h' p t log hpre
      rw [show step m (Op.deploy h' p t) = tx_deployed m h' p t from rfl, hstep] at hpost
      have hlog' : log' = deployUpdate log p t := (Option.some.inj hpost).symm
      rw [hlog']
      show statusRank log.status ≤ statusRank PrivateTxStatus.Deployed
      exact statusRank_le_two log.status
    · have hstep := lookupA_tx_deployed_ne m h' p t h hh
      rw [show step m (Op.deploy h' p t) = tx_deployed m h' p t from rfl, hstep,
        hpre] at hpost
      rw [Option.some.inj hpost]

/-- Witness for C2 (amended): a `tx_deployed` step on a present `Created`
entry, where the status rank strictly advances. -/
theorem status_monotone_except_quirks_witness :
    statusRank (newTransactionLog 1 [] 0).status ≤
      statusRank (deployUpdate (newTransactionLog 1 [] 0) 5 7).status
    ∨ (∃ vs t, Op.deploy 1 5 7 = Op.create 1 vs t ∧
        (deployUpdate (newTransactionLog 1 [] 0) 5 7).status = PrivateTxStatus.Created)
    ∨ (∃ v t, Op.deploy 1 5 7 = Op.sigAdd 1 v t ∧
        (newTransactionLog 1 [] 0).status = PrivateTxStatus.Deployed ∧
        (deployUpdate (newTransactionLog 1 [] 0) 5 7).status =
          PrivateTxStatus.Validating) :=
  status_monotone_except_quirks [(1, newTransactionLog 1 [] 0)] (Op.deploy 1 5 7) 1
    (newTransactionLog 1 [] 0) (deployUpdate (newTransactionLog 1 [] 0) 5 7)
    (by decide) (by decide)

/-- C3 counterexample: `signature_added` with a present identifier whose
entry has no validator record for the given account still mutates the map:
the status flips from `Created` to `Validating`. -/
theorem record_validation_missing_validator_counterexample :
    ((lookupA (runOps [Op.create 1 [7] 0]) 1).bind
      (fun log => log.validators.find? (fun vl => vl.account == 9))) = none ∧
    (lookupA (runOps [Op.create 1 [7] 0]) 1).map TransactionLog.status =
      some PrivateTxStatus.Created ∧
    (lookupA (runOps [Op.create 1 [7] 0, Op.sigAdd 1 9 1]) 1).map TransactionLog.status =
      some PrivateTxStatus.Validating ∧
    runOps [Op.create 1 [7] 0, Op.sigAdd 1 9 1] ≠ runOps [Op.create 1 [7] 0] := by
  decide

/-- C3 (amended): `signature_added` with an absent identifier leaves the map
completely unchanged; with a present identifier but no validator record for
the account, the entry's validators and all other fields are unchanged but
its status is still set to `Validating`, and no other key is affected. -/
theorem record_validation_absent_cases (m : State) (h v t : Nat) :
    (lookupA m h = none → signature_added m h v t = m) ∧
    (∀ log, lookupA m h = some log →
      log.validators.find? (fun vl => vl.account == v) = none →
      lookupA (signature_added m h v t) h =
        some { log with status := PrivateTxStatus.Validating } ∧
      ∀ k, k ≠ h → lookupA (signature_added m h v t) k = lookupA m k) := by
  constructor
  · intro hnone
    have hc : ¬containsA m h = true := by simp [containsA, hnone]
    simp [signature_added, hc]
  · intro log hsome hfind
    constructor
    · rw [lookupA_signature_added_self m h v t log hsome]
      unfold sigUpdate
      rw [hfind]
    · intro k hk
      exact lookupA_signature_added_ne m h v t k (fun hh => hk hh.symm)

/-- Witness for C3 (amended): an absent identifier is a strict no-op, and a
present identifier with a foreign validator account only flips the status. -/
theorem record_validation_absent_cases_witness :
    signature_added [(1, newTransactionLog 1 [7] 0)] 2 9 5 =
      [(1, newTransactionLog 1 [7] 0)] ∧
    lookupA (signature_added [(1, newTransactionLog 1 [7] 0)] 1 9 5) 1 =
      some { newTransactionLog 1 [7] 0 with status := PrivateTxStatus.Validating } := by
  refine ⟨(record_validation_absent_cases [(1, newTransactionLog 1 [7] 0)] 2 9 5).1
    (by decide), ?_⟩
  exact ((record_validation_absent_cases [(1, newTransactionLog 1 [7] 0)] 1 9 5).2
    (newTransactionLog 1 [7] 0) (by decide) (by decide)).1

/-! ### Characterization of one step, and per-entry trace invariants -/

/-- What a single operation can do to the entry found at a given hash. -/
theorem lookupA_step_cases (m : State) (op : Op) (h : Nat) (log : TransactionLog)
    (hl : lookupA (step m op) h = some log) :
    lookupA m h = some log
    ∨ (∃ vs t, op = Op.create h vs t ∧ log = newTransactionLog h vs t)
    ∨ (∃ v t old, op = Op.sigAdd h v t ∧ lookupA m h = some old ∧
        log = sigUpdate old v t)
    ∨ (∃ p t old, op = Op.deploy h p t ∧ lookupA m h = some old ∧
        log = deployUpdate old p t) := by
  cases op with
  | create h' vs t =>
    by_cases hh : h' = h
    · subst hh
      have hstep : lookupA (step m (Op.create h' vs t)) h' =
          some (newTransactionLog h' vs t) := by
        show lookupA (insertA (evictIfFull m) h' (newTransactionLog h' vs t)) h' = _
        rw [lookupA_insertA, if_pos rfl]
      rw [hstep] at hl
      exact Or.inr (Or.inl ⟨vs, t, rfl, (Option.some.inj hl).symm⟩)
    · have hstep : lookupA (step m (Op.create h' vs t)) h = lookupA (evictIfFull m) h := by
        show lookupA (insertA (evictIfFull m) h' (newTransactionLog h' vs t)) h = _
        rw [lookupA_insertA, if_neg hh]
      rcases lookupA_evictIfFull m h with he | he
      · rw [hstep, he] at hl
        simp at hl
      · rw [hstep, he] at hl
        exact Or.inl hl
  | sigAdd h' v t =>
    by_cases hh : h' = h
    · subst hh
      cases hpre : lookupA m h' with
      | none =>
        have hc : ¬containsA m h' = true := by simp [containsA, hpre]
        have hstep : step m (Op.sigAdd h' v t) = m := by
          show signature_added m h' v t = m
          unfold signature_added
          rw [if_neg hc]
        rw [hstep, hpre] at hl
        simp at hl
      | some old =>
        have hstep := lookupA_signature_added_self m h' v t old hpre
        rw [show step m (Op.sigAdd h' v t) = signature_added m h' v t from rfl,
          hstep] at hl
        exact Or.inr (Or.inr (Or.inl ⟨v, t, old, rfl, rfl, (Option.some.inj hl).symm⟩))
    · have hstep := lookupA_signature_added_ne m h' v t h hh
      rw [show step m (Op.sigAdd h' v t) = signature_added m h' v t from rfl,
        hstep] at hl
      exact Or.inl hl
  | deploy h' p t =>
    by_cases hh : h' = h
    · subst hh
      cases hpre : lookupA m h' with
      | none =>
        have hc : ¬containsA m h' = true := by simp [containsA, hpre]
        have hstep : step m (Op.deploy h' p t) = m := by
          show tx_deployed m h' p t = m
          unfold tx_deployed
          rw [if_neg hc]
        rw [hstep, hpre] at hl
        simp at hl
      | some old =>
        have hstep := lookupA_tx_deployed_self m h' p t old hpre
        rw [show step m (Op.deploy h' p t) = tx_deployed m h' p t from rfl,
          hstep] at hl
        exact Or.inr (Or.inr (Or.inr ⟨p, t, old, rfl, rfl, (Option.some.inj hl).symm⟩))
    · have hstep := lookupA_tx_deployed_ne m h' p t h hh
      rw [show step m (Op.deploy h' p t) = tx_deployed m h' p t from rfl,
        hstep] at hl
      exact Or.inl hl

/-- Every entry reachable by lookup satisfies `P`. -/
def StateInv (P : TransactionLog → Prop) (m : State) : Prop :=
  ∀ h log, lookupA m h = some log → P log

theorem stateInv_step (P : TransactionLog → Prop)
    (hc : ∀ h vs t, P (newTransactionLog h vs t))
    (hs : ∀ log v t, P log → P (sigUpdate log v t))
    (hd : ∀ log p t, P log → P (deployUpdate log p t))
    (m : State) (op : Op) (hm : StateInv P m) : StateInv P (step m op) := by
  intro h log hl
  rcases lookupA_step_cases m op h log hl with hcase | hcase | hcase | hcase
  · exact hm h log hcase
  · obtain ⟨vs, t, _, hlog⟩ := hcase
    rw [hlog]
    exact hc h vs t
  · obtain ⟨v, t, old, _, hold, hlog⟩ := hcase
    rw [hlog]
    exact hs old v t (hm h old hold)
  · obtain ⟨p, t, old, _, hold, hlog⟩ := hcase
    rw [hlog]
    exact hd old p t (hm h old hold)

theorem stateInv_foldl (P : TransactionLog → Prop)
    (hc : ∀ h vs t, P (newTransactionLog h vs t))
    (hs : ∀ log v t, P log → P (sigUpdate log v t))
    (hd : ∀ log p t, P log → P (deployUpdate log p t)) :
    ∀ (ops : List Op) (m : State), StateInv P m → StateInv P (ops.foldl step m)
  | [], _, hm => hm
  | op :: rest, m, hm =>
    stateInv_foldl P hc hs hd rest (step m op) (stateInv_step P hc hs hd m op hm)

theorem stateInv_runOps (P : TransactionLog → Prop)
    (hc : ∀ h vs t, P (newTransactionLog h vs t))
    (hs : ∀ log v t, P log → P (sigUpdate log v t))
    (hd : ∀ log p t, P log → P (deployUpdate log p t))
    (ops : List Op) : StateInv P (runOps ops) :=
  stateInv_foldl P hc hs hd ops [] (fun _ log hl => by simp [lookupA] at hl)

/-- No `tx_deployed` call on the given hash occurs in the sequence. -/
def noDeployOn (ops : List Op) (h : Nat) : Prop :=
  ∀ p t, Op.deploy h p t ∉ ops

theorem no_deploy_fields : ∀ (ops : List Op) (m : State) (h : Nat),
    noDeployOn ops h →
    (∀ log, lookupA m h = some log →
      log.deployment_timestamp = none ∧ log.public_tx_hash = none) →
    ∀ log, lookupA (ops.foldl step m) h = some log →
      log.deployment_timestamp = none ∧ log.public_tx_hash = none
  | [], _, _, _, hbase, log, hl => hbase log hl
  | op :: rest, m, h, hnd, hbase, log, hl => by
    have hndrest : noDeployOn rest h :=
      fun p t hmem => hnd p t (List.mem_cons_of_mem _ hmem)
    refine no_deploy_fields rest (step m op) h hndrest ?_ log hl
    intro log0 hl0
    rcases lookupA_step_cases m op h log0 hl0 with hcase | hcase | hcase | hcase
    · exact hbase log0 hcase
    · obtain ⟨vs, t, _, hlog⟩ := hcase
      rw [hlog]
      exact ⟨rfl, rfl⟩
    · obtain ⟨v, t, old, _, hold, hlog⟩ := hcase
      obtain ⟨hd1, hd2⟩ := hbase old hold
      obtain ⟨hp1, hp2⟩ := sigUpdate_deployment_fields old v t
      rw [hlog]
      exact ⟨hp1.trans hd1, hp2.trans hd2⟩
    · obtain ⟨p, t, old, hop, _, _⟩ := hcase
      exact absurd (hop ▸ List.mem_cons_self op rest) (hnd p t)

/-- C6 counterexample: a second `tx_deployed` call on the same entry
overwrites both `deployment_timestamp` and `public_tx_hash`, so neither is
set only once over the entry's lifetime. -/
theorem deployment_fields_overwritten_counterexample :
    (lookupA (runOps [Op.create 1 [] 0, Op.deploy 1 5 1]) 1).map
      TransactionLog.deployment_timestamp = some (some 1) ∧
    (lookupA (runOps [Op.create 1 [] 0, Op.deploy 1 5 1, Op.deploy 1 6 2]) 1).map
      TransactionLog.deployment_timestamp = some (some 2) ∧
    (lookupA (runOps [Op.create 1 [] 0, Op.deploy 1 5 1]) 1).map
      TransactionLog.public_tx_hash = some (some 5) ∧
    (lookupA (runOps [Op.create 1 [] 0, Op.deploy 1 5 1, Op.deploy 1 6 2]) 1).map
      TransactionLog.public_tx_hash = some (some 6) := by
  decide

/-- C6 (amended): over any call sequence from the empty journal,
`deployment_timestamp` and `public_tx_hash` are always both set or both
unset; both stay `None` as long as no `tx_deployed` call on the entry's
identifier has occurred; and each `tx_deployed` call on a present entry sets
both together (a later call overwriting the earlier values). -/
theorem deployment_fields_set_together (ops : List Op) (h : Nat) :
    (∀ log, lookupA (runOps ops) h = some log →
      (log.deployment_timestamp.isSome ↔ log.public_tx_hash.isSome)) ∧
    (noDeployOn ops h → ∀ log, lookupA (runOps ops) h = some log →
      log.deployment_timestamp = none ∧ log.public_tx_hash = none) ∧
    (∀ (m : State) (p t : Nat) (log : TransactionLog), lookupA m h = some log →
      lookupA (tx_deployed m h p t) h = some (deployUpdate log p t) ∧
      (deployUpdate log p t).deployment_timestamp = some t ∧
      (deployUpdate log p t).public_tx_hash = some p) := by
  refine ⟨?_, ?_, ?_⟩
  · intro log hl
    refine stateInv_runOps
      (fun log => (log.deployment_timestamp.isSome ↔ log.public_tx_hash.isSome))
      (fun _ _ _ => by simp [newTransactionLog]) ?_ ?_ ops h log hl
    · intro log0 v t hp
      obtain ⟨h1, h2⟩ := sigUpdate_deployment_fields log0 v t
      rw [h1, h2]
      exact hp
    · intro log0 p t _
      simp [deployUpdate]
  · intro hnd log hl
    exact no_deploy_fields ops [] h hnd (fun _ hl0 => by simp [lookupA] at hl0) log hl
  · intro m p t log hl
    exact ⟨lookupA_tx_deployed_self m h p t log hl, rfl, rfl⟩

/-- Witness for C6 (amended) on a one-operation trace and a one-entry map. -/
theorem deployment_fields_set_together_witness :
    ((newTransactionLog 1 [] 0).deployment_timestamp.isSome ↔
      (newTransactionLog 1 [] 0).public_tx_hash.isSome) ∧
    ((newTransactionLog 1 [] 0).deployment_timestamp = none ∧
      (newTransactionLog 1 [] 0).public_tx_hash = none) ∧
    (lookupA (tx_deployed [(1, newTransactionLog 1 [] 0)] 1 5 7) 1 =
      some (deployUpdate (newTransactionLog 1 [] 0) 5 7) ∧
      (deployUpdate (newTransactionLog 1 [] 0) 5 7).deployment_timestamp = some 7 ∧
      (deployUpdate (newTransactionLog 1 [] 0) 5 7).public_tx_hash = some 5) := by
  refine ⟨(deployment_fields_set_together [Op.create 1 [] 0] 1).1
      (newTransactionLog 1 [] 0) (by decide),
    (deployment_fields_set_together [Op.create 1 [] 0] 1).2.1
      (fun p t hmem => by simp at hmem) (newTransactionLog 1 [] 0) (by decide),
    (deployment_fields_set_together [Op.create 1 [] 0] 1).2.2
      [(1, newTransactionLog 1 [] 0)] 5 7 (newTransactionLog 1 [] 0) (by decide)⟩

/-! ### The end-to-end scenario -/

/-- C7: from an empty journal with clock readings 0, 1, 2, creating `T1 = 1`
with validators `[V1 = 2]`, then validating by `V1`, then deploying with
`P1 = 3` produces exactly the states the spec's scenario demands, and the
final lookup returns exactly the final state. -/
theorem end_to_end_scenario :
    lookupA (runOps [Op.create 1 [2] 0]) 1 =
      some { tx_hash := 1
             status := PrivateTxStatus.Created
             creation_timestamp := 0
             validators := [{ account := 2, validated := false,
                              validation_timestamp := none }]
             deployment_timestamp := none
             public_tx_hash := none } ∧
    lookupA (runOps [Op.create 1 [2] 0, Op.sigAdd 1 2 1]) 1 =
      some { tx_hash := 1
             status := PrivateTxStatus.Validating
             creation_timestamp := 0
             validators := [{ account := 2, validated := true,
                              validation_timestamp := some 1 }]
             deployment_timestamp := none
             public_tx_hash := none } ∧
    lookupA (runOps [Op.create 1 [2] 0, Op.sigAdd 1 2 1, Op.deploy 1 3 2]) 1 =
      some { tx_hash := 1
             status := PrivateTxStatus.Deployed
             creation_timestamp := 0
             validators := [{ account := 2, validated := true,
                              validation_timestamp := some 1 }]
             deployment_timestamp := some 2
             public_tx_hash := some 3 } := by
  decide

/-! ### The file-backed serializer -/

/-- C8: flushing an empty map returns success and leaves the backing file
exactly as it was, whatever the configured directory: nothing is created
and nothing is truncated. -/
theorem flush_logs_empty_no_file_op (s : FileLogsSerializer) (file : FileState) :
    FileLogsSerializer.flush_logs s file [] = (Except.ok (), file) := rfl

theorem flush_logs_none_keeps_file (file : FileState) (logs : State) :
    FileLogsSerializer.flush_logs ⟨none⟩ file logs = (Except.ok (), file) := by
  unfold FileLogsSerializer.flush_logs
  by_cases hz : sizeA logs = 0
  · rw [if_pos hz]
  · rw [if_neg hz]

theorem foldl_flush_none : ∀ (callSeq : List State) (file : FileState),
    callSeq.foldl (fun f l => (FileLogsSerializer.flush_logs ⟨none⟩ f l).2) file = file
  | [], _ => rfl
  | l :: rest, file => by
    rw [List.foldl_cons]
    rw [show (FileLogsSerializer.flush_logs ⟨none⟩ file l).2 = file from by
      rw [flush_logs_none_keeps_file]]
    exact foldl_flush_none rest file

/-- C9: with no configured directory, `read_logs` always returns an empty
sequence without error, a single `flush_logs` succeeds while leaving the
file state untouched, and any number of successive `flush_logs` calls never
creates a file. -/
theorem disabled_persistence_idempotent (file : FileState) (logs : State)
    (callSeq : List State) :
    FileLogsSerializer.read_logs ⟨none⟩ file = Except.ok [] ∧
    FileLogsSerializer.flush_logs ⟨none⟩ file logs = (Except.ok (), file) ∧
    callSeq.foldl (fun f l => (FileLogsSerializer.flush_logs ⟨none⟩ f l).2) file =
      file :=
  ⟨rfl, flush_logs_none_keeps_file file logs, foldl_flush_none callSeq file⟩

/-! ### The load-time retention filter and its unguarded subtraction -/

theorem wrapSub_eq_sub (now creation : Nat) (h1 : now < U64MOD)
    (hle : creation ≤ now) : wrapSub now creation = now - creation := by
  have h2 : creation < U64MOD := lt_of_le_of_lt hle h1
  have hcm : creation % U64MOD = creation := Nat.mod_eq_of_lt h2
  have hU : 0 < U64MOD := by decide
  have hsplit : now + (U64MOD - creation) = (now - creation) + U64MOD := by omega
  rw [wrapSub, hcm, hsplit, Nat.add_mod_right]
  exact Nat.mod_eq_of_lt (lt_of_le_of_lt (Nat.sub_le now creation) h1)

/-- C10: the retention filter's subtraction is exact precisely under the
precondition `creation_timestamp ≤ current_timestamp` — then it equals the
mathematical age and the filter keeps exactly the entries younger than
`MAX_STORING_TIME`; when `creation_timestamp` exceeds the clock the `u64`
subtraction underflows, producing a value different from the mathematical
difference. -/
theorem retention_subtraction_underflow (now creation : Nat)
    (h1 : now < U64MOD) (h2 : creation < U64MOD) :
    (creation ≤ now →
      wrapSub now creation = now - creation ∧
      (∀ log : TransactionLog, log.creation_timestamp = creation →
        (keepLog now log = true ↔ now - creation < MAX_STORING_TIME))) ∧
    (now < creation →
      (wrapSub now creation : Int) ≠ (now : Int) - (creation : Int)) := by
  constructor
  · intro hle
    refine ⟨wrapSub_eq_sub now creation h1 hle, ?_⟩
    intro log hlc
    rw [keepLog, hlc, wrapSub_eq_sub now creation h1 hle]
    exact decide_eq_true_iff
  · intro hlt
    intro hcontra
    have hneg : (now : Int) - (creation : Int) < 0 := by
      have : (now : Int) < (creation : Int) := by exact_mod_cast hlt
      omega
    have hpos : (0 : Int) ≤ (wrapSub now creation : Int) := Int.natCast_nonneg _
    omega

/-- Witness for C10 at concrete clock readings. -/
theorem retention_subtraction_underflow_witness :
    wrapSub 5 3 = 5 - 3 ∧
    (keepLog 5 (newTransactionLog 9 [] 3) = true ↔ 5 - 3 < MAX_STORING_TIME) ∧
    (wrapSub 3 5 : Int) ≠ (3 : Int) - (5 : Int) := by
  refine ⟨((retention_subtraction_underflow 5 3 (by decide) (by decide)).1
      (by decide)).1,
    ((retention_subtraction_underflow 5 3 (by decide) (by decide)).1
      (by decide)).2 (newTransactionLog 9 [] 3) rfl,
    (retention_subtraction_underflow 3 5 (by decide) (by decide)).2 (by decide)⟩

/-- The last element of the list bound to a hash, mirroring that later
inserts into the map overwrite earlier ones. -/
def lastMatch : List TransactionLog → Nat → Option TransactionLog
  | [], _ => none
  | l :: rest, h =>
    match lastMatch rest h with
    | some r => some r
    | none => if l.tx_hash = h then some l else none

theorem lookupA_foldl_insert : ∀ (ls : List TransactionLog) (m0 : State) (h : Nat),
    lookupA (ls.foldl (fun m log => insertA m log.tx_hash log) m0) h =
      match lastMatch ls h with
      | some r => some r
      | none => lookupA m0 h
  | [], _, _ => rfl
  | l :: rest, m0, h => by
    rw [List.foldl_cons, lookupA_foldl_insert rest (insertA m0 l.tx_hash l) h]
    cases hr : lastMatch rest h with
    | some r => simp [lastMatch, hr]
    | none =>
      simp only [lastMatch, hr]
      rw [lookupA_insertA]
      by_cases hl : l.tx_hash = h
      · simp [hl]
      · simp [hl]

theorem lastMatch_mem : ∀ (ls : List TransactionLog) (h : Nat) (r : TransactionLog),
    lastMatch ls h = some r → r ∈ ls ∧ r.tx_hash = h
  | [], _, _, hl => by simp [lastMatch] at hl
  | l :: rest, h, r, hl => by
    cases hr : lastMatch rest h with
    | some r' =>
      simp only [lastMatch, hr] at hl
      have heq : r' = r := Option.some.inj hl
      subst heq
      obtain ⟨hm, hh⟩ := lastMatch_mem rest h r' hr
      exact ⟨List.mem_cons_of_mem _ hm, hh⟩
    | none =>
      simp only [lastMatch, hr] at hl
      by_cases hlh : l.tx_hash = h
      · rw [if_pos hlh] at hl
        have heq : l = r := Option.some.inj hl
        subst heq
        exact ⟨List.mem_cons_self _ _, hlh⟩
      · rw [if_neg hlh] at hl
        exact absurd hl (by simp)

theorem lastMatch_isSome_of_mem : ∀ (ls : List TransactionLog) (l : TransactionLog),
    l ∈ ls → (lastMatch ls l.tx_hash).isSome
  | [], _, hmem => by simp at hmem
  | x :: rest, l, hmem => by
    cases hr : lastMatch rest l.tx_hash with
    | some r => simp [lastMatch, hr]
    | none =>
      simp only [lastMatch, hr]
      rcases List.mem_cons.mp hmem with h1 | h1
      · subst h1
        rw [if_pos rfl]
        simp
      · have hs := lastMatch_isSome_of_mem rest l h1
        rw [hr] at hs
        simp at hs

/-- C4: after construction-time loading at clock reading `now` (all loaded
entries carrying timestamps not in the future), every loaded entry at least
`MAX_STORING_TIME` old is absent from the map, every loaded entry younger
than that is present under its hash, and the entry stored for any hash is
exactly the last age-surviving snapshot entry with that hash (later
duplicates overwrite earlier ones). -/
theorem load_retention (snapshot : List TransactionLog) (now : Nat)
    (hnow : now < U64MOD)
    (hts : ∀ l ∈ snapshot, l.creation_timestamp ≤ now) :
    (∀ l ∈ snapshot, MAX_STORING_TIME ≤ now - l.creation_timestamp →
      ∀ k, lookupA (loadAtConstruction snapshot now) k ≠ some l) ∧
    (∀ l ∈ snapshot, now - l.creation_timestamp < MAX_STORING_TIME →
      (lookupA (loadAtConstruction snapshot now) l.tx_hash).isSome) ∧
    (∀ k, lookupA (loadAtConstruction snapshot now) k =
      lastMatch (snapshot.filter (keepLog now)) k) := by
  have hchar : ∀ k, lookupA (loadAtConstruction snapshot now) k =
      lastMatch (snapshot.filter (keepLog now)) k := by
    intro k
    rw [show loadAtConstruction snapshot now =
      (snapshot.filter (keepLog now)).foldl
        (fun m log => insertA m log.tx_hash log) [] from rfl]
    rw [lookupA_foldl_insert]
    cases lastMatch (snapshot.filter (keepLog now)) k <;> rfl
  have hkeep : ∀ l ∈ snapshot,
      (keepLog now l = true ↔ now - l.creation_timestamp < MAX_STORING_TIME) := by
    intro l hmem
    rw [keepLog, wrapSub_eq_sub now l.creation_timestamp hnow (hts l hmem)]
    exact decide_eq_true_iff
  refine ⟨?_, ?_, hchar⟩
  · intro l hmem hold k hcontra
    rw [hchar k] at hcontra
    obtain ⟨hfmem, _⟩ := lastMatch_mem _ k l hcontra
    have hkept : keepLog now l = true := (List.mem_filter.mp hfmem).2
    have hyoung := (hkeep l hmem).mp hkept
    omega
  · intro l hmem hyoung
    have hkept : keepLog now l = true := (hkeep l hmem).mpr hyoung
    have hfmem : l ∈ snapshot.filter (keepLog now) :=
      List.mem_filter.mpr ⟨hmem, hkept⟩
    rw [hchar l.tx_hash]
    exact lastMatch_isSome_of_mem _ l hfmem

/-- Witness for C4: at clock reading `MAX_STORING_TIME`, a snapshot holding
one expired entry (age exactly the window) and one young entry loads to a
map without the former and with the latter. -/
theorem load_retention_witness :
    lookupA (loadAtConstruction
        [newTransactionLog 10 [] 0, newTransactionLog 11 [] 1000000] 1728000) 10 ≠
      some (newTransactionLog 10 [] 0) ∧
    (lookupA (loadAtConstruction
        [newTransactionLog 10 [] 0, newTransactionLog 11 [] 1000000] 1728000)
      11).isSome := by
  refine ⟨(load_retention _ 1728000 (by decide) (by decide)).1
      (newTransactionLog 10 [] 0) (by decide) (by decide) 10,
    (load_retention _ 1728000 (by decide) (by decide)).2.1
      (newTransactionLog 11 [] 1000000) (by decide) (by decide)⟩

end PrivateTxLog
